import Mathlib

/-!
Verification development for the `gpoint` crate: a wrapper that renders a
floating-point value through the C library's `printf("%g")` conversion.

The crate's own code (`src/lib.rs`, `fmt_g`) assembles a printf control
string from the host formatter's directives inside a 19-byte cursor
(`FORMAT_SIZE - 1`), calls `snprintf` into a 200-byte buffer
(`NUMSTR_SIZE`), rejects results whose would-be length reaches the buffer
size, and otherwise emits the bytes unchecked as UTF-8.  That part is
embedded below directly from the source.  The `%g` conversion itself is
performed by the platform C library, whose code is not part of this
repository; it is modelled from the specification's step-by-step
description (precision normalization, special values, exponent after
rounding, notation choice, trimming, sign and padding composition).
-/

namespace GPointSpec

/-- `FORMAT_SIZE` from the source: size of the control-string buffer;
one byte is reserved for the trailing NUL, so 19 bytes are writable. -/
def FORMAT_SIZE : Nat := 20

/-- `NUMSTR_SIZE` from the source: size of the output buffer handed to
`snprintf`. -/
def NUMSTR_SIZE : Nat := 200

/-- The formatting request, mirroring the formatter flags read by `fmt_g`:
`sign_aware_zero_pad` (→ `zero_pad`), `sign_minus` (→ `left_justify`),
`sign_plus` (→ `force_sign`), `alternate`, `width`, `precision`. -/
structure FormatDirectives where
  zero_pad : Bool := false
  left_justify : Bool := false
  force_sign : Bool := false
  alternate : Bool := false
  width : Option Nat := none
  precision : Option Nat := none
deriving DecidableEq, Repr

/-- A double-precision value as classified by the formatter: NaN,
signed infinity, or a signed finite magnitude.  Every finite IEEE-754
double is an exact rational, so the magnitude is carried as `ℚ`;
`finite true 0` is negative zero. -/
inductive Value where
  | nan : Value
  | inf (neg : Bool) : Value
  | finite (neg : Bool) (mag : ℚ) : Value
deriving DecidableEq, Repr

/-- The error taxonomy of the formatter (both collapse to the host's
opaque formatting error): a control string that does not fit the format
buffer, or a composed output that does not fit the output buffer. -/
inductive GErr where
  | directiveEncodingFailure : GErr
  | formattingOverflow : GErr
deriving DecidableEq, Repr

instance {ε α : Type} [DecidableEq ε] [DecidableEq α] : DecidableEq (Except ε α) := fun a b =>
  match a, b with
  | Except.error e, Except.error f =>
      if h : e = f then isTrue (by rw [h]) else
        isFalse (fun hh => h (by injection hh))
  | Except.error _, Except.ok _ => isFalse (fun hh => Except.noConfusion hh)
  | Except.ok _, Except.error _ => isFalse (fun hh => Except.noConfusion hh)
  | Except.ok x, Except.ok y =>
      if h : x = y then isTrue (by rw [h]) else
        isFalse (fun hh => h (by injection hh))

/-- Decimal digit character. -/
def digitChar (n : Nat) : Char :=
  match n with
  | 0 => '0' | 1 => '1' | 2 => '2' | 3 => '3' | 4 => '4'
  | 5 => '5' | 6 => '6' | 7 => '7' | 8 => '8' | _ => '9'

/-- Most-significant-first decimal digits of `n`, with explicit fuel
(each step divides by 10, so fuel `n` is always sufficient). -/
def digitsAux : Nat → Nat → List Char
  | 0, _ => []
  | fuel + 1, n => if n = 0 then [] else digitsAux fuel (n / 10) ++ [digitChar (n % 10)]

/-- Decimal rendering of a natural number, `"0"` for zero. -/
def digitsOf (n : Nat) : List Char :=
  if n = 0 then ['0'] else digitsAux n n

/-- Number of decimal digits of `n` (one for zero). -/
def digitLen (n : Nat) : Nat := (digitsOf n).length

/-- The printf control string assembled by `fmt_g`, one branch per arm of
its `match (formatter.width(), formatter.precision())`.  `sign_pad` is
`"-"` under `sign_minus`, else `"+"` under `sign_plus`; note that the
`(None, Some(p))` arm writes neither `sign_pad` nor `zero_pad`. -/
def formatString (d : FormatDirectives) : List Char :=
  let alternate : List Char := if d.alternate then ['#'] else []
  let sign_pad : List Char :=
    if d.left_justify then ['-'] else if d.force_sign then ['+'] else []
  let zero_pad : List Char := if d.zero_pad then ['0'] else []
  match d.width, d.precision with
  | none, none => '%' :: alternate ++ sign_pad ++ ['g']
  | some w, none => '%' :: alternate ++ sign_pad ++ zero_pad ++ digitsOf w ++ ['g']
  | none, some p => '%' :: alternate ++ '.' :: digitsOf p ++ ['g']
  | some w, some p =>
      '%' :: alternate ++ sign_pad ++ zero_pad ++ digitsOf w ++ '.' :: digitsOf p ++ ['g']

/-- The directives actually encoded into the control string, branch by
branch: the `(None, None)` arm carries no `zero_pad`, and the
`(None, Some(p))` arm carries neither sign flags nor `zero_pad`.  When
`sign_pad` is written, `'-'` (left-justify) wins over `'+'`. -/
def effDirectives (d : FormatDirectives) : FormatDirectives :=
  match d.width, d.precision with
  | none, none =>
      { d with zero_pad := false, force_sign := !d.left_justify && d.force_sign }
  | some _, none =>
      { d with force_sign := !d.left_justify && d.force_sign }
  | none, some _ =>
      { d with zero_pad := false, left_justify := false, force_sign := false }
  | some _, some _ =>
      { d with force_sign := !d.left_justify && d.force_sign }

/-- Modelled from the spec (missing code: the C library's decimal
conversion): the decimal exponent `E₀` of a positive rational, i.e. the
unique `E₀` with `10^E₀ ≤ q < 10^(E₀+1)`, computed from the digit counts
of numerator and denominator; the comparison `10^c ≤ q` is written
cross-multiplied so that it evaluates by integer arithmetic. -/
def ratLog10 (q : ℚ) : Int :=
  let a : Nat := q.num.toNat
  let b : Nat := q.den
  let c : Int := (digitLen a : Int) - (digitLen b : Int)
  if b * 10 ^ c.toNat ≤ a * 10 ^ (-c).toNat then c else c - 1

/-- Modelled from the spec: round the fraction `A / B` (with `B > 0`) to
the nearest integer, ties to even, matching the IEEE default rounding
used by the reference C library. -/
def roundHE (A B : Int) : Int :=
  let f : Int := Int.fdiv A B
  let r : Int := A - f * B
  if 2 * r < B then f
  else if B < 2 * r then f + 1
  else if f % 2 = 0 then f else f + 1

/-- Modelled from the spec, Step 3: round the positive magnitude `q` to
`P` significant digits and return the digit characters together with the
decimal exponent, recomputed after rounding (rounding `9.99…` up can
shift the exponent by one, in which case the digits collapse to
`10^(P-1)`).  The scaled value `q · 10^(P-1-E₀)` is kept as the integer
fraction `(num · 10^(P-1-E₀)⁺) / (den · 10^(P-1-E₀)⁻)`. -/
def gDigitsExp (P : Nat) (q : ℚ) : List Char × Int :=
  let E0 : Int := ratLog10 q
  let k : Int := (P : Int) - 1 - E0
  let n : Int := roundHE (q.num * ((10 ^ k.toNat : Nat) : Int))
    ((q.den : Int) * ((10 ^ (-k).toNat : Nat) : Int))
  if n = 10 ^ P then (digitsOf (10 ^ (P - 1)), E0 + 1) else (digitsOf n.toNat, E0)

/-- Modelled from the spec: exponent suffix `e±NN`, sign always present,
at least two exponent digits. -/
def expStr (E : Int) : List Char :=
  let ds : List Char := digitsOf E.natAbs
  'e' :: (if E < 0 then '-' else '+') :: (List.replicate (2 - ds.length) '0' ++ ds)

/-- Pad a digit list on the right with `'0'` up to length `F`. -/
def rightPadZ (F : Nat) (l : List Char) : List Char :=
  l ++ List.replicate (F - l.length) '0'

/-- Strip trailing `'0'` characters. -/
def trimZ (l : List Char) : List Char :=
  (l.reverse.dropWhile (fun c => c = '0')).reverse

/-- Modelled from the spec, Step 4: integer part, untrimmed fractional
part and exponent suffix of a positive magnitude at effective precision
`P`: scientific notation (`P - 1` fractional digits plus `e±NN`) when
`E < -4` or `E ≥ P`, fixed notation (`P - 1 - E` fractional digits,
clamped at zero) otherwise. -/
def gParts (P : Nat) (q : ℚ) : List Char × List Char × List Char :=
  let de := gDigitsExp P q
  let ds := de.1
  let E := de.2
  if E < -4 ∨ (P : Int) ≤ E then
    (ds.take 1, rightPadZ (P - 1) (ds.drop 1), expStr E)
  else if E < 0 then
    (['0'], List.replicate (-1 - E).toNat '0' ++ ds, [])
  else
    (ds.take (E.toNat + 1), rightPadZ (P - 1 - E.toNat) (ds.drop (E.toNat + 1)), [])

/-- Modelled from the spec, Step 5: assemble integer part, fractional
part and suffix; under `alternate` the fractional part and decimal point
are kept (a lone trailing point when it is empty), otherwise trailing
zeros are stripped and an empty fraction loses its point. -/
def withFrac (alternate : Bool) (parts : List Char × List Char × List Char) : List Char :=
  let t := trimZ parts.2.1
  parts.1 ++
    (if alternate then '.' :: parts.2.1 else if t.isEmpty then [] else '.' :: t) ++
    parts.2.2

/-- Modelled from the spec: render a finite magnitude at effective
precision `P`; zero renders as the single digit `0` with `P - 1`
fractional zeros (so `"0"` after trimming, `"0.00000"` under `alternate`
at the default precision). -/
def renderFinite (alternate : Bool) (P : Nat) (mag : ℚ) : List Char :=
  if mag = 0 then withFrac alternate (['0'], List.replicate (P - 1) '0', [])
  else withFrac alternate (gParts P mag)

/-- Modelled from the spec, Step 1: effective precision, default 6, and
zero behaves as one. -/
def effPrecision (d : FormatDirectives) : Nat :=
  let P := d.precision.getD 6
  if P = 0 then 1 else P

/-- Modelled from the spec, Steps 2–5: the rendered body, before the
sign: `"nan"` / `"inf"` literals for special values (independent of
precision and alternate), the rounded digit rendering otherwise. -/
def gBody (d : FormatDirectives) (v : Value) : List Char :=
  match v with
  | Value.nan => ['n', 'a', 'n']
  | Value.inf _ => ['i', 'n', 'f']
  | Value.finite _ mag => renderFinite d.alternate (effPrecision d) mag

/-- Modelled from the spec, Step 6: the sign character: `-` for negative
values (including negative zero and negative infinity), `+` for
non-negative values under `force_sign`; NaN is sign-less but receives
`+` under `force_sign`. -/
def gSign (d : FormatDirectives) (v : Value) : List Char :=
  match v with
  | Value.nan => if d.force_sign then ['+'] else []
  | Value.inf neg => if neg then ['-'] else if d.force_sign then ['+'] else []
  | Value.finite neg _ => if neg then ['-'] else if d.force_sign then ['+'] else []

/-- The rendered token before width composition: sign then body. -/
def gToken (d : FormatDirectives) (v : Value) : List Char :=
  gSign d v ++ gBody d v

/-- Whether the value is finite (zero-padding applies only to these). -/
def isFiniteV : Value → Bool
  | Value.finite _ _ => true
  | _ => false

/-- Modelled from the spec, Step 6: width composition.  A token at least
as long as the field is emitted unchanged; otherwise left-justification
appends spaces, zero-padding (finite values only) inserts zeros between
sign and body, and otherwise spaces are prepended. -/
def gRender (d : FormatDirectives) (v : Value) : List Char :=
  let tok := gToken d v
  match d.width with
  | none => tok
  | some W =>
      if W ≤ tok.length then tok
      else if d.left_justify then tok ++ List.replicate (W - tok.length) ' '
      else if d.zero_pad && isFiniteV v then
        gSign d v ++ List.replicate (W - tok.length) '0' ++ gBody d v
      else List.replicate (W - tok.length) ' ' ++ tok

/-- `fmt_g` from the source: build the control string inside the 19-byte
cursor (failure is the `.map_err(|_| fmt::Error)?` branch), invoke the
(modelled) `snprintf`, reject a would-be length that reaches
`NUMSTR_SIZE`, and otherwise emit the rendered bytes. -/
def fmt_g (d : FormatDirectives) (v : Value) : Except GErr String :=
  if FORMAT_SIZE - 1 < (formatString d).length then
    Except.error GErr.directiveEncodingFailure
  else
    let out := gRender (effDirectives d) v
    if NUMSTR_SIZE ≤ out.length then Except.error GErr.formattingOverflow
    else Except.ok (String.mk out)

/-- `Display for GPoint<f64>`: delegates to `fmt_g`. -/
def displayF64 (d : FormatDirectives) (v : Value) : Except GErr String :=
  fmt_g d v

/-- A 32-bit float as classified by the formatter; finite `f32`
magnitudes are exact rationals as well. -/
inductive Value32 where
  | nan : Value32
  | inf (neg : Bool) : Value32
  | finite (neg : Bool) (mag : ℚ) : Value32
deriving DecidableEq, Repr

/-- The widening `self.0 as f64`: exact on every `f32` (NaN to NaN,
infinities and sign preserved, finite values to the same rational). -/
def f32_to_f64 : Value32 → Value
  | Value32.nan => Value.nan
  | Value32.inf neg => Value.inf neg
  | Value32.finite neg mag => Value.finite neg mag

/-- `Display for GPoint<f32>`: widens to `f64` and delegates to
`fmt_g`. -/
def displayF32 (d : FormatDirectives) (v : Value32) : Except GErr String :=
  fmt_g d (f32_to_f64 v)

/-- A character is a 7-bit ASCII code point. -/
def isAsciiChar (c : Char) : Bool := c.toNat < 128

/-! ### Digit machinery -/

theorem digitsAux_zero (f : Nat) : digitsAux f 0 = [] := by
  cases f <;> simp [digitsAux]

theorem digitsAux_length_pos (f n : Nat) (hn : 0 < n) (hf : n ≤ f) :
    0 < (digitsAux f n).length := by
  cases f with
  | zero => omega
  | succ f => simp [digitsAux, Nat.pos_iff_ne_zero.mp hn]

theorem digitsAux_length_le (f : Nat) :
    ∀ n k, n ≤ f → n < 10 ^ k → (digitsAux f n).length ≤ k := by
  induction f with
  | zero =>
      intro n k hn _
      interval_cases n
      simp [digitsAux_zero]
  | succ f ih =>
      intro n k hn hk
      by_cases h0 : n = 0
      · simp [h0, digitsAux_zero]
      · have hk0 : k ≠ 0 := by
          rintro rfl
          simp only [pow_zero, Nat.lt_one_iff] at hk
          exact h0 hk
        obtain ⟨k', rfl⟩ : ∃ k', k = k' + 1 := ⟨k - 1, by omega⟩
        have h1 : n / 10 ≤ f := by
          have := Nat.div_lt_self (Nat.pos_of_ne_zero h0) (by norm_num : 1 < 10)
          omega
        have h2 : n / 10 < 10 ^ k' := by
          apply Nat.div_lt_of_lt_mul
          rw [pow_succ] at hk
          omega
        have := ih (n / 10) k' h1 h2
        simp only [digitsAux, h0, if_false, List.length_append, List.length_cons,
          List.length_nil]
        omega

theorem lt_digitsAux_length (f : Nat) :
    ∀ n k, n ≤ f → 10 ^ k ≤ n → k < (digitsAux f n).length := by
  induction f with
  | zero =>
      intro n k hn hk
      have : 0 < 10 ^ k := Nat.pos_pow_of_pos k (by norm_num)
      omega
  | succ f ih =>
      intro n k hn hk
      have hn0 : n ≠ 0 := by
        have : 0 < 10 ^ k := Nat.pos_pow_of_pos k (by norm_num)
        omega
      simp only [digitsAux, hn0, if_false, List.length_append, List.length_cons,
        List.length_nil]
      cases k with
      | zero => omega
      | succ k' =>
          have h1 : n / 10 ≤ f := by
            have := Nat.div_lt_self (Nat.pos_of_ne_zero hn0) (by norm_num : 1 < 10)
            omega
          have h2 : 10 ^ k' ≤ n / 10 := by
            rw [Nat.le_div_iff_mul_le (by norm_num : 0 < 10)]
            rw [pow_succ] at hk
            omega
          have := ih (n / 10) k' h1 h2
          omega

theorem digitsAux_pow (f : Nat) :
    ∀ n, 0 < n → n ≤ f →
      10 ^ ((digitsAux f n).length - 1) ≤ n ∧ n < 10 ^ (digitsAux f n).length := by
  induction f with
  | zero => intro n hn hf; omega
  | succ f ih =>
      intro n hn hf
      have hn0 : n ≠ 0 := Nat.pos_iff_ne_zero.mp hn
      simp only [digitsAux, hn0, if_false, List.length_append, List.length_cons,
        List.length_nil, Nat.zero_add]
      by_cases hq : n / 10 = 0
      · have hlt : n < 10 := by
          have := Nat.div_add_mod n 10
          have := Nat.mod_lt n (by norm_num : 0 < 10)
          omega
        simp [hq, digitsAux_zero]
        omega
      · have h1 : n / 10 ≤ f := by
          have := Nat.div_lt_self hn (by norm_num : 1 < 10)
          omega
        obtain ⟨hlo, hhi⟩ := ih (n / 10) (Nat.pos_of_ne_zero hq) h1
        have hL : 0 < (digitsAux f (n / 10)).length :=
          digitsAux_length_pos f (n / 10) (Nat.pos_of_ne_zero hq) h1
        obtain ⟨L, hLe⟩ : ∃ L, (digitsAux f (n / 10)).length = L + 1 :=
          ⟨(digitsAux f (n / 10)).length - 1, by omega⟩
        rw [hLe] at hlo hhi ⊢
        constructor
        · have hstep : 10 ^ (L + 1) = 10 ^ L * 10 := pow_succ 10 L
          have hmul : 10 ^ L * 10 ≤ (n / 10) * 10 := by
            have : 10 ^ (L + 1 - 1) = 10 ^ L := by simp
            rw [this] at hlo
            omega
          have := Nat.div_mul_le_self n 10
          simp only [Nat.add_sub_cancel]
          omega
        · have hstep : 10 ^ (L + 1 + 1) = 10 ^ (L + 1) * 10 := pow_succ 10 (L + 1)
          have := Nat.div_add_mod n 10
          have := Nat.mod_lt n (by norm_num : 0 < 10)
          omega

theorem digitsOf_ne_nil (n : Nat) : digitsOf n ≠ [] := by
  by_cases h : n = 0
  · simp [digitsOf, h]
  · simp only [digitsOf, h, if_false]
    intro hnil
    have := digitsAux_length_pos n n (Nat.pos_of_ne_zero h) le_rfl
    rw [hnil] at this
    simp at this

theorem digitLen_pos (n : Nat) : 0 < digitLen n :=
  List.length_pos.mpr (digitsOf_ne_nil n)

theorem digitsOf_length_le (n k : Nat) (hk : 0 < k) (h : n < 10 ^ k) :
    (digitsOf n).length ≤ k := by
  by_cases h0 : n = 0
  · simp [digitsOf, h0]; omega
  · simp only [digitsOf, h0, if_false]
    exact digitsAux_length_le n n k le_rfl h

theorem digitsOf_length_eq (n k : Nat) (hlo : 10 ^ k ≤ n) (hhi : n < 10 ^ (k + 1)) :
    (digitsOf n).length = k + 1 := by
  have h0 : n ≠ 0 := by
    have : 0 < 10 ^ k := Nat.pos_pow_of_pos k (by norm_num)
    omega
  simp only [digitsOf, h0, if_false]
  have h1 := digitsAux_length_le n n (k + 1) le_rfl hhi
  have h2 := lt_digitsAux_length n n k le_rfl hlo
  omega

theorem digitLen_bounds (n : Nat) (hn : 0 < n) :
    10 ^ (digitLen n - 1) ≤ n ∧ n < 10 ^ digitLen n := by
  have h0 : n ≠ 0 := Nat.pos_iff_ne_zero.mp hn
  simp only [digitLen, digitsOf, h0, if_false]
  exact digitsAux_pow n n hn le_rfl

/-! ### Decimal exponent and rounding -/

theorem zpow10_pos (x : Int) : (0:ℚ) < 10 ^ x :=
  zpow_pos (by norm_num) x

theorem zpow10_add (x y : Int) : (10:ℚ) ^ (x + y) = 10 ^ x * 10 ^ y :=
  zpow_add₀ (by norm_num) x y

theorem q10nat (m : Nat) : ((10 ^ m : Nat) : ℚ) = (10:ℚ) ^ (m : Int) := by
  push_cast
  exact (zpow_natCast 10 m).symm

theorem num_eq_mul_den (q : ℚ) : (q.num : ℚ) = q * (q.den : ℚ) := by
  have hden : ((q.den : ℚ)) ≠ 0 := by
    exact_mod_cast q.den_pos.ne'
  exact (div_eq_iff hden).mp (Rat.num_div_den q)

theorem pow10_le_q_iff (q : ℚ) (hq : 0 < q) (c : Int) :
    q.den * 10 ^ c.toNat ≤ q.num.toNat * 10 ^ (-c).toNat ↔ (10:ℚ) ^ c ≤ q := by
  have hnum : (0:ℤ) < q.num := Rat.num_pos.mpr hq
  have hden : (0:ℚ) < (q.den : ℚ) := by exact_mod_cast q.den_pos
  have hX : (0:ℚ) < (q.den : ℚ) * (10:ℚ) ^ (((-c).toNat : Nat) : Int) :=
    mul_pos hden (zpow10_pos _)
  have e1 : (10:ℚ) ^ c * ((q.den : ℚ) * (10:ℚ) ^ (((-c).toNat : Nat) : Int)) =
      ((q.den * 10 ^ c.toNat : Nat) : ℚ) := by
    rw [mul_comm ((10:ℚ) ^ c) _, mul_assoc, ← zpow10_add]
    rw [show (((-c).toNat : Nat) : Int) + c = ((c.toNat : Nat) : Int) by omega]
    rw [Nat.cast_mul, q10nat]
  have e2 : q * ((q.den : ℚ) * (10:ℚ) ^ (((-c).toNat : Nat) : Int)) =
      ((q.num.toNat * 10 ^ (-c).toNat : Nat) : ℚ) := by
    rw [← mul_assoc, ← num_eq_mul_den]
    rw [Nat.cast_mul, q10nat]
    congr 1
    exact_mod_cast (Int.toNat_of_nonneg hnum.le).symm
  rw [← Nat.cast_le (α := ℚ), ← e1, ← e2]
  exact mul_le_mul_right hX

theorem ratLog10_spec (q : ℚ) (hq : 0 < q) :
    (10:ℚ) ^ ratLog10 q ≤ q ∧ q < (10:ℚ) ^ (ratLog10 q + 1) := by
  have hnum : (0:ℤ) < q.num := Rat.num_pos.mpr hq
  have hden : (0:ℚ) < (q.den : ℚ) := by exact_mod_cast q.den_pos
  set a : Nat := q.num.toNat with hadef
  set b : Nat := q.den with hbdef
  have hapos : 0 < a := by
    have := Int.toNat_of_nonneg hnum.le
    omega
  have hbpos : 0 < b := q.den_pos
  obtain ⟨halo, hahi⟩ := digitLen_bounds a hapos
  obtain ⟨hblo, hbhi⟩ := digitLen_bounds b hbpos
  have hda1 : 1 ≤ digitLen a := digitLen_pos a
  have hdb1 : 1 ≤ digitLen b := digitLen_pos b
  set c : Int := (digitLen a : Int) - digitLen b with hcdef
  have hanum : ((a : Nat) : ℚ) = q * (q.den : ℚ) := by
    have haq : ((a : Nat) : Int) = q.num := Int.toNat_of_nonneg hnum.le
    have haq' : ((a : Nat) : ℚ) = ((q.num : Int) : ℚ) := by exact_mod_cast haq
    rw [haq']
    exact num_eq_mul_den q
  have hupper : q < (10:ℚ) ^ (c + 1) := by
    rw [← mul_lt_mul_right hden]
    calc q * (q.den : ℚ) = ((a : Nat) : ℚ) := hanum.symm
      _ < ((10 ^ digitLen a : Nat) : ℚ) := by exact_mod_cast hahi
      _ = (10:ℚ) ^ ((digitLen a : Nat) : Int) := q10nat _
      _ = (10:ℚ) ^ (c + 1) * (10:ℚ) ^ ((digitLen b - 1 : Nat) : Int) := by
          rw [← zpow10_add]
          congr 1
          omega
      _ ≤ (10:ℚ) ^ (c + 1) * (q.den : ℚ) := by
          have h1 : ((10 ^ (digitLen b - 1) : Nat) : ℚ) ≤ ((b : Nat) : ℚ) := by
            exact_mod_cast hblo
          rw [← q10nat]
          exact mul_le_mul_of_nonneg_left h1 (zpow10_pos _).le
  have hlower : (10:ℚ) ^ (c - 1) < q := by
    rw [← mul_lt_mul_right hden]
    calc (10:ℚ) ^ (c - 1) * (q.den : ℚ)
        < (10:ℚ) ^ (c - 1) * (10:ℚ) ^ ((digitLen b : Nat) : Int) := by
          have h1 : ((b : Nat) : ℚ) < ((10 ^ digitLen b : Nat) : ℚ) := by
            exact_mod_cast hbhi
          rw [← q10nat]
          exact mul_lt_mul_of_pos_left h1 (zpow10_pos _)
      _ = (10:ℚ) ^ ((digitLen a - 1 : Nat) : Int) := by
          rw [← zpow10_add]
          congr 1
          omega
      _ ≤ ((a : Nat) : ℚ) := by
          rw [← q10nat]
          exact_mod_cast halo
      _ = q * (q.den : ℚ) := hanum
  have hcond := pow10_le_q_iff q hq c
  simp only [ratLog10]
  rw [← hadef, ← hbdef, ← hcdef]
  split_ifs with h
  · exact ⟨hcond.mp h, hupper⟩
  · have hqlt : q < (10:ℚ) ^ c := by
      by_contra hcon
      exact (h (hcond.mpr (le_of_not_lt hcon))).elim
    constructor
    · exact hlower.le
    · rw [sub_add_cancel]
      exact hqlt

theorem roundHE_bounds (A B : Int) :
    Int.fdiv A B ≤ roundHE A B ∧ roundHE A B ≤ Int.fdiv A B + 1 := by
  simp only [roundHE]
  split_ifs <;> omega

theorem le_roundHE (A B C : Int) (hB : 0 < B) (h : C * B ≤ A) : C ≤ roundHE A B := by
  have h1 : C ≤ Int.fdiv A B := by
    rw [Int.fdiv_eq_ediv _ hB.le]
    exact (Int.le_ediv_iff_mul_le hB).mpr h
  exact h1.trans (roundHE_bounds A B).1

theorem roundHE_le (A B C : Int) (hB : 0 < B) (h : A < C * B) : roundHE A B ≤ C := by
  have h1 : Int.fdiv A B < C := by
    rw [Int.fdiv_eq_ediv _ hB.le]
    exact (Int.ediv_lt_iff_lt_mul hB).mpr h
  have h2 := (roundHE_bounds A B).2
  omega

theorem gDigitsExp_length (P : Nat) (q : ℚ) (hq : 0 < q) (hP : 1 ≤ P) :
    (gDigitsExp P q).1.length = P := by
  obtain ⟨hlo, hhi⟩ := ratLog10_spec q hq
  have hnum : (0:ℤ) < q.num := Rat.num_pos.mpr hq
  have hden : (0:ℚ) < (q.den : ℚ) := by exact_mod_cast q.den_pos
  set E0 : Int := ratLog10 q with hE0
  set k : Int := (P : Int) - 1 - E0 with hk
  set A : Int := q.num * ((10 ^ k.toNat : Nat) : Int) with hA
  set B : Int := (q.den : Int) * ((10 ^ (-k).toNat : Nat) : Int) with hB
  have hBpos : (0:ℤ) < B := by
    rw [hB]
    have h1 : (0:ℤ) < (q.den : Int) := by exact_mod_cast q.den_pos
    have h2 : (0:ℤ) < ((10 ^ (-k).toNat : Nat) : Int) := by
      exact_mod_cast Nat.pos_pow_of_pos _ (by norm_num : (0:Nat) < 10)
    exact mul_pos h1 h2
  have hT1 : (0:ℚ) < (10:ℚ) ^ ((k.toNat : Nat) : Int) := zpow10_pos _
  have key1 : (10:ℤ) ^ (P - 1) * B ≤ A := by
    rw [← Int.cast_le (R := ℚ), hA, hB]
    push_cast
    rw [num_eq_mul_den]
    rw [← zpow_natCast (10:ℚ) (P - 1), ← zpow_natCast (10:ℚ) k.toNat,
      ← zpow_natCast (10:ℚ) (-k).toNat]
    have hpoweq : (10:ℚ) ^ ((P - 1 : Nat) : Int) * (10:ℚ) ^ (((-k).toNat : Nat) : Int) =
        (10:ℚ) ^ E0 * (10:ℚ) ^ ((k.toNat : Nat) : Int) := by
      rw [← zpow10_add, ← zpow10_add]
      exact congrArg (fun t => (10:ℚ) ^ t) (by omega)
    calc (10:ℚ) ^ ((P - 1 : Nat) : Int) *
          ((q.den : ℚ) * (10:ℚ) ^ (((-k).toNat : Nat) : Int))
        = ((10:ℚ) ^ ((P - 1 : Nat) : Int) * (10:ℚ) ^ (((-k).toNat : Nat) : Int)) *
            (q.den : ℚ) := by ring
      _ = ((10:ℚ) ^ E0 * (10:ℚ) ^ ((k.toNat : Nat) : Int)) * (q.den : ℚ) := by
          rw [hpoweq]
      _ ≤ (q * (10:ℚ) ^ ((k.toNat : Nat) : Int)) * (q.den : ℚ) := by
          exact mul_le_mul_of_nonneg_right
            (mul_le_mul_of_nonneg_right hlo hT1.le) hden.le
      _ = q * (q.den : ℚ) * (10:ℚ) ^ ((k.toNat : Nat) : Int) := by ring
  have key2 : A < (10:ℤ) ^ P * B := by
    rw [← Int.cast_lt (R := ℚ), hA, hB]
    push_cast
    rw [num_eq_mul_den]
    rw [← zpow_natCast (10:ℚ) P, ← zpow_natCast (10:ℚ) k.toNat,
      ← zpow_natCast (10:ℚ) (-k).toNat]
    have hpoweq : (10:ℚ) ^ (E0 + 1) * (10:ℚ) ^ ((k.toNat : Nat) : Int) =
        (10:ℚ) ^ ((P : Nat) : Int) * (10:ℚ) ^ (((-k).toNat : Nat) : Int) := by
      rw [← zpow10_add, ← zpow10_add]
      exact congrArg (fun t => (10:ℚ) ^ t) (by omega)
    calc q * (q.den : ℚ) * (10:ℚ) ^ ((k.toNat : Nat) : Int)
        = (q * (10:ℚ) ^ ((k.toNat : Nat) : Int)) * (q.den : ℚ) := by ring
      _ < ((10:ℚ) ^ (E0 + 1) * (10:ℚ) ^ ((k.toNat : Nat) : Int)) * (q.den : ℚ) := by
          exact mul_lt_mul_of_pos_right (mul_lt_mul_of_pos_right hhi hT1) hden
      _ = ((10:ℚ) ^ ((P : Nat) : Int) * (10:ℚ) ^ (((-k).toNat : Nat) : Int)) *
            (q.den : ℚ) := by rw [hpoweq]
      _ = (10:ℚ) ^ ((P : Nat) : Int) *
            ((q.den : ℚ) * (10:ℚ) ^ (((-k).toNat : Nat) : Int)) := by ring
  set n : Int := roundHE A B with hn
  have hnlo : (10:ℤ) ^ (P - 1) ≤ n := le_roundHE A B _ hBpos key1
  have hnhi : n ≤ (10:ℤ) ^ P := roundHE_le A B _ hBpos key2
  have hcastlo : (((10 ^ (P - 1) : Nat) : Int)) = (10:ℤ) ^ (P - 1) := by push_cast; rfl
  have hcasthi : (((10 ^ P : Nat) : Int)) = (10:ℤ) ^ P := by push_cast; rfl
  simp only [gDigitsExp]
  rw [← hE0, ← hk, ← hA, ← hB, ← hn]
  split_ifs with hcase
  · show (digitsOf (10 ^ (P - 1))).length = P
    have h2 : (10 ^ (P - 1) : Nat) < 10 ^ (P - 1 + 1) :=
      Nat.pow_lt_pow_right (by norm_num) (by omega)
    rw [digitsOf_length_eq (10 ^ (P - 1)) (P - 1) le_rfl h2]
    omega
  · show (digitsOf n.toNat).length = P
    have hlt : n < (10:ℤ) ^ P := lt_of_le_of_ne hnhi hcase
    have hlo' : (10 ^ (P - 1) : Nat) ≤ n.toNat := by omega
    have hhi' : n.toNat < (10 ^ (P - 1 + 1) : Nat) := by
      have : (10 ^ (P - 1 + 1) : Nat) = (10 ^ P : Nat) := by
        congr 1
        omega
      omega
    rw [digitsOf_length_eq n.toNat (P - 1) hlo' hhi']
    omega

/-! ### Shape of the rendered parts -/

theorem rightPadZ_length (F : Nat) (l : List Char) :
    (rightPadZ F l).length = max F l.length := by
  simp only [rightPadZ, List.length_append, List.length_replicate]
  omega

theorem dropWhile_replicate_zero (k : Nat) :
    List.dropWhile (fun c => c = '0') (List.replicate k '0') = [] := by
  induction k with
  | zero => simp
  | succ k ih => simp [List.replicate_succ, List.dropWhile_cons, ih]

theorem trimZ_replicate (k : Nat) : trimZ (List.replicate k '0') = [] := by
  simp [trimZ, List.reverse_replicate, dropWhile_replicate_zero]

/-- C6: for every finite nonzero magnitude with effective precision `P`
and decimal exponent `E` computed after rounding to `P` significant
digits (`gDigitsExp`), the rendered parts use scientific notation with
`P - 1` fractional digits and an exponent suffix `e±NN` (mandatory sign,
at least two exponent digits) exactly when `E < -4` or `E ≥ P`, and
otherwise fixed notation with `max (P - 1 - E) 0` fractional digits and
no suffix. -/
theorem gpoint_notation_choice (P : Nat) (q : ℚ) (hq : 0 < q) (hP : 1 ≤ P) :
    ((gDigitsExp P q).2 < -4 ∨ (P : Int) ≤ (gDigitsExp P q).2 →
      (gParts P q).2.1.length = P - 1 ∧
      ∃ c t, (gParts P q).2.2 = 'e' :: c :: t ∧ (c = '+' ∨ c = '-') ∧ 2 ≤ t.length) ∧
    (¬((gDigitsExp P q).2 < -4 ∨ (P : Int) ≤ (gDigitsExp P q).2) →
      (gParts P q).2.2 = [] ∧
      ((gParts P q).2.1.length : Int) = max ((P : Int) - 1 - (gDigitsExp P q).2) 0) := by
  have hlen := gDigitsExp_length P q hq hP
  rcases hdes : gDigitsExp P q with ⟨ds, E⟩
  rw [hdes] at hlen
  simp only at hlen
  simp only [gParts, hdes]
  constructor
  · intro hcond
    rw [if_pos hcond]
    refine ⟨?_, ?_⟩
    · show (rightPadZ (P - 1) (ds.drop 1)).length = P - 1
      rw [rightPadZ_length, List.length_drop, hlen]
      omega
    · show ∃ c t, expStr E = 'e' :: c :: t ∧ (c = '+' ∨ c = '-') ∧ 2 ≤ t.length
      refine ⟨if E < 0 then '-' else '+',
        List.replicate (2 - (digitsOf E.natAbs).length) '0' ++ digitsOf E.natAbs,
        rfl, ?_, ?_⟩
      · split_ifs
        · right; rfl
        · left; rfl
      · rw [List.length_append, List.length_replicate]
        have := digitLen_pos E.natAbs
        simp only [digitLen] at this
        omega
  · intro hcond
    rw [if_neg hcond]
    push_neg at hcond
    obtain ⟨h1, h2⟩ := hcond
    by_cases hE : E < 0
    · rw [if_pos hE]
      refine ⟨rfl, ?_⟩
      show ((List.replicate (-1 - E).toNat '0' ++ ds).length : Int) =
        max ((P : Int) - 1 - E) 0
      rw [List.length_append, List.length_replicate, hlen]
      have hmax : max ((P : Int) - 1 - E) 0 = (P : Int) - 1 - E := by omega
      rw [hmax]
      omega
    · rw [if_neg hE]
      refine ⟨rfl, ?_⟩
      show ((rightPadZ (P - 1 - E.toNat) (ds.drop (E.toNat + 1))).length : Int) =
        max ((P : Int) - 1 - E) 0
      rw [rightPadZ_length, List.length_drop, hlen]
      have hmax : max ((P : Int) - 1 - E) 0 = (P : Int) - 1 - E := by omega
      rw [hmax]
      omega

/-! ### Every produced character is ASCII -/

theorem digitChar_ascii (n : Nat) : isAsciiChar (digitChar n) = true := by
  rcases n with _|_|_|_|_|_|_|_|_|n <;> rfl

theorem digitsAux_ascii (f : Nat) :
    ∀ n, ∀ c ∈ digitsAux f n, isAsciiChar c = true := by
  induction f with
  | zero =>
      intro n c hc
      simp [digitsAux] at hc
  | succ f ih =>
      intro n c hc
      by_cases h0 : n = 0
      · simp [digitsAux, h0] at hc
      · simp only [digitsAux, h0, if_false, List.mem_append,
          List.mem_singleton] at hc
        rcases hc with hc | hc
        · exact ih _ c hc
        · rw [hc]
          exact digitChar_ascii _

theorem digitsOf_ascii (n : Nat) : ∀ c ∈ digitsOf n, isAsciiChar c = true := by
  intro c hc
  by_cases h : n = 0
  · simp only [digitsOf, h, if_true, List.mem_singleton] at hc
    rw [hc]
    rfl
  · simp only [digitsOf, h, if_false] at hc
    exact digitsAux_ascii n n c hc

theorem trimZ_subset (l : List Char) : ∀ c ∈ trimZ l, c ∈ l := by
  intro c hc
  simp only [trimZ, List.mem_reverse] at hc
  exact List.mem_reverse.mp ((List.dropWhile_sublist _).subset hc)

theorem expStr_ascii (E : Int) : ∀ c ∈ expStr E, isAsciiChar c = true := by
  intro c hc
  simp only [expStr, List.mem_cons, List.mem_append, List.mem_replicate] at hc
  rcases hc with rfl | hc
  · rfl
  · rcases hc with rfl | hc
    · split_ifs <;> rfl
    · rcases hc with ⟨_, rfl⟩ | hc
      · rfl
      · exact digitsOf_ascii _ c hc

theorem rightPadZ_ascii (F : Nat) (l : List Char)
    (hl : ∀ c ∈ l, isAsciiChar c = true) :
    ∀ c ∈ rightPadZ F l, isAsciiChar c = true := by
  intro c hc
  simp only [rightPadZ, List.mem_append, List.mem_replicate] at hc
  rcases hc with hc | ⟨_, rfl⟩
  · exact hl c hc
  · rfl

theorem gDigitsExp_ascii (P : Nat) (q : ℚ) :
    ∀ c ∈ (gDigitsExp P q).1, isAsciiChar c = true := by
  intro c hc
  simp only [gDigitsExp] at hc
  split_ifs at hc <;> exact digitsOf_ascii _ c hc

theorem gParts_ascii (P : Nat) (q : ℚ) :
    (∀ c ∈ (gParts P q).1, isAsciiChar c = true) ∧
    (∀ c ∈ (gParts P q).2.1, isAsciiChar c = true) ∧
    (∀ c ∈ (gParts P q).2.2, isAsciiChar c = true) := by
  have hds := gDigitsExp_ascii P q
  simp only [gParts]
  split_ifs with h1 h2
  · refine ⟨?_, ?_, ?_⟩
    · intro c hc
      exact hds c (List.take_subset _ _ hc)
    · intro c hc
      exact rightPadZ_ascii _ _ (fun c hc => hds c (List.drop_subset _ _ hc)) c hc
    · exact expStr_ascii _
  · refine ⟨?_, ?_, ?_⟩
    · intro c hc
      simp only [List.mem_singleton] at hc
      rw [hc]
      rfl
    · intro c hc
      simp only [List.mem_append, List.mem_replicate] at hc
      rcases hc with ⟨_, rfl⟩ | hc
      · rfl
      · exact hds c hc
    · intro c hc
      simp at hc
  · refine ⟨?_, ?_, ?_⟩
    · intro c hc
      exact hds c (List.take_subset _ _ hc)
    · intro c hc
      exact rightPadZ_ascii _ _ (fun c hc => hds c (List.drop_subset _ _ hc)) c hc
    · intro c hc
      simp at hc

theorem withFrac_ascii (alternate : Bool) (parts : List Char × List Char × List Char)
    (h1 : ∀ c ∈ parts.1, isAsciiChar c = true)
    (h2 : ∀ c ∈ parts.2.1, isAsciiChar c = true)
    (h3 : ∀ c ∈ parts.2.2, isAsciiChar c = true) :
    ∀ c ∈ withFrac alternate parts, isAsciiChar c = true := by
  intro c hc
  simp only [withFrac, List.mem_append] at hc
  rcases hc with (hc | hc) | hc
  · exact h1 c hc
  · split_ifs at hc
    · simp only [List.mem_cons] at hc
      rcases hc with rfl | hc
      · rfl
      · exact h2 c hc
    · simp at hc
    · simp only [List.mem_cons] at hc
      rcases hc with rfl | hc
      · rfl
      · exact h2 c (trimZ_subset _ c hc)
  · exact h3 c hc

theorem renderFinite_ascii (alternate : Bool) (P : Nat) (mag : ℚ) :
    ∀ c ∈ renderFinite alternate P mag, isAsciiChar c = true := by
  simp only [renderFinite]
  split_ifs with h
  · apply withFrac_ascii
    · intro c hc
      simp only [List.mem_singleton] at hc
      rw [hc]
      rfl
    · intro c hc
      simp only [List.mem_replicate] at hc
      rw [hc.2]
      rfl
    · intro c hc
      simp at hc
  · obtain ⟨h1, h2, h3⟩ := gParts_ascii P mag
    exact withFrac_ascii _ _ h1 h2 h3

theorem gBody_ascii (d : FormatDirectives) (v : Value) :
    ∀ c ∈ gBody d v, isAsciiChar c = true := by
  cases v with
  | nan =>
      intro c hc
      simp only [gBody, List.mem_cons] at hc
      rcases hc with rfl | rfl | rfl | hc
      · rfl
      · rfl
      · rfl
      · simp at hc
  | inf neg =>
      intro c hc
      simp only [gBody, List.mem_cons] at hc
      rcases hc with rfl | rfl | rfl | hc
      · rfl
      · rfl
      · rfl
      · simp at hc
  | finite neg mag => exact renderFinite_ascii _ _ _

theorem gSign_ascii (d : FormatDirectives) (v : Value) :
    ∀ c ∈ gSign d v, isAsciiChar c = true := by
  intro c hc
  have hplus : isAsciiChar '+' = true := rfl
  have hminus : isAsciiChar '-' = true := rfl
  cases v <;> simp only [gSign] at hc <;> split_ifs at hc <;>
      simp only [List.mem_singleton, List.not_mem_nil] at hc
  all_goals first
    | exact absurd hc (by simp)
    | (rw [hc]; rfl)

theorem gToken_ascii (d : FormatDirectives) (v : Value) :
    ∀ c ∈ gToken d v, isAsciiChar c = true := by
  intro c hc
  simp only [gToken, List.mem_append] at hc
  rcases hc with hc | hc
  · exact gSign_ascii d v c hc
  · exact gBody_ascii d v c hc

theorem gRender_ascii (d : FormatDirectives) (v : Value) :
    ∀ c ∈ gRender d v, isAsciiChar c = true := by
  intro c hc
  rcases d with ⟨zp, lj, fs, alt, w, p⟩
  rcases w with _ | W
  · simp only [gRender] at hc
    exact gToken_ascii _ v c hc
  · simp only [gRender] at hc
    split_ifs at hc
    · exact gToken_ascii _ v c hc
    · simp only [List.mem_append, List.mem_replicate] at hc
      rcases hc with hc | ⟨_, rfl⟩
      · exact gToken_ascii _ v c hc
      · rfl
    · simp only [List.mem_append, List.mem_replicate] at hc
      rcases hc with (hc | ⟨_, rfl⟩) | hc
      · exact gSign_ascii _ v c hc
      · rfl
      · exact gBody_ascii _ v c hc
    · simp only [List.mem_append, List.mem_replicate] at hc
      rcases hc with ⟨_, rfl⟩ | hc
      · rfl
      · exact gToken_ascii _ v c hc

/-! ### Width composition, special values, flag interactions -/

theorem gRender_pad (zp lj fs alt : Bool) (w p : Option Nat) (v : Value) (W : Nat) :
    (((gToken ⟨zp, lj, fs, alt, w, p⟩ v).length < W →
      (gRender ⟨zp, lj, fs, alt, some W, p⟩ v).length = W) ∧
     (W ≤ (gToken ⟨zp, lj, fs, alt, w, p⟩ v).length →
      gRender ⟨zp, lj, fs, alt, some W, p⟩ v = gToken ⟨zp, lj, fs, alt, w, p⟩ v)) := by
  have htok : gToken ⟨zp, lj, fs, alt, some W, p⟩ v = gToken ⟨zp, lj, fs, alt, w, p⟩ v := by
    cases v <;> rfl
  have hsb : (gSign ⟨zp, lj, fs, alt, some W, p⟩ v).length +
      (gBody ⟨zp, lj, fs, alt, some W, p⟩ v).length =
      (gToken ⟨zp, lj, fs, alt, w, p⟩ v).length := by
    rw [← htok]
    simp [gToken]
  constructor
  · intro h
    simp only [gRender, htok]
    split_ifs with h1 h2 h3
    · omega
    · simp only [List.length_append, List.length_replicate]
      omega
    · simp only [List.length_append, List.length_replicate]
      omega
    · simp only [List.length_append, List.length_replicate]
      omega
  · intro h
    simp only [gRender, htok]
    rw [if_pos h]

theorem gToken_special_no_zero (d : FormatDirectives) (v : Value)
    (hv : isFiniteV v = false) : ∀ c ∈ gToken d v, c ≠ '0' := by
  intro c hc
  simp only [gToken, List.mem_append] at hc
  rcases hc with hc | hc
  · cases v <;> simp only [gSign] at hc <;> split_ifs at hc <;>
        simp only [List.mem_singleton, List.not_mem_nil] at hc
    all_goals first
      | exact absurd hc (by simp)
      | (rw [hc]; decide)
  · cases v with
    | nan =>
        simp only [gBody, List.mem_cons] at hc
        rcases hc with rfl | rfl | rfl | hc
        · decide
        · decide
        · decide
        · simp at hc
    | inf neg =>
        simp only [gBody, List.mem_cons] at hc
        rcases hc with rfl | rfl | rfl | hc
        · decide
        · decide
        · decide
        · simp at hc
    | finite neg mag => simp [isFiniteV] at hv

theorem gRender_special_no_zero (zp lj fs alt : Bool) (w p : Option Nat) (v : Value)
    (hv : isFiniteV v = false) :
    ∀ c ∈ gRender ⟨zp, lj, fs, alt, w, p⟩ v, c ≠ '0' := by
  intro c hc
  have htokc := gToken_special_no_zero ⟨zp, lj, fs, alt, w, p⟩ v hv
  rcases w with _ | W
  · simp only [gRender] at hc
    exact htokc c hc
  · simp only [gRender] at hc
    split_ifs at hc with h1 h2 h3
    · exact htokc c hc
    · simp only [List.mem_append, List.mem_replicate] at hc
      rcases hc with hc | ⟨_, rfl⟩
      · exact htokc c hc
      · decide
    · rw [hv, Bool.and_false] at h3
      cases h3
    · simp only [List.mem_append, List.mem_replicate] at hc
      rcases hc with ⟨_, rfl⟩ | hc
      · decide
      · exact htokc c hc

theorem gRender_special_zp (zp1 zp2 lj fs alt : Bool) (w p : Option Nat) (v : Value)
    (hv : isFiniteV v = false) :
    gRender ⟨zp1, lj, fs, alt, w, p⟩ v = gRender ⟨zp2, lj, fs, alt, w, p⟩ v := by
  have htok : gToken ⟨zp1, lj, fs, alt, w, p⟩ v = gToken ⟨zp2, lj, fs, alt, w, p⟩ v := by
    cases v <;> rfl
  rcases w with _ | W
  · simp only [gRender]
    exact htok
  · simp only [gRender, htok, hv, Bool.and_false]
    split_ifs with h1 h2 h3
    · rfl
    · rfl
    · exact h3.elim
    · rfl

theorem gRender_zp_lj (zp1 zp2 fs alt : Bool) (w p : Option Nat) (v : Value) :
    gRender ⟨zp1, true, fs, alt, w, p⟩ v = gRender ⟨zp2, true, fs, alt, w, p⟩ v := by
  have htok : gToken ⟨zp1, true, fs, alt, w, p⟩ v = gToken ⟨zp2, true, fs, alt, w, p⟩ v := by
    cases v <;> rfl
  rcases w with _ | W
  · simp only [gRender]
    exact htok
  · simp only [gRender, htok]
    split_ifs <;> rfl

theorem renderFinite_zero_trim (P : Nat) : renderFinite false P 0 = ['0'] := by
  simp only [renderFinite, if_pos rfl, withFrac, trimZ_replicate]
  simp

theorem formatString_zp_le (lj fs alt : Bool) (w p : Option Nat) :
    (formatString ⟨false, lj, fs, alt, w, p⟩).length ≤
      (formatString ⟨true, lj, fs, alt, w, p⟩).length := by
  rcases w with _ | w <;> rcases p with _ | p <;>
      simp only [formatString, List.length_cons, List.length_append] <;>
    split_ifs <;> simp

theorem formatString_length_le (d : FormatDirectives)
    (hw : d.width.getD 0 < 10 ^ 6) (hp : d.precision.getD 0 < 10 ^ 6) :
    (formatString d).length ≤ FORMAT_SIZE - 1 := by
  rcases d with ⟨zp, lj, fs, alt, w, p⟩
  rcases w with _ | w <;> rcases p with _ | p <;>
      simp only [Option.getD_some, Option.getD_none] at hw hp <;>
      simp only [formatString, FORMAT_SIZE, List.length_cons, List.length_append,
        List.length_singleton]
  · split_ifs <;> simp
  · have hdp := digitsOf_length_le p 6 (by norm_num) hp
    split_ifs <;> simp <;> omega
  · have hdw := digitsOf_length_le w 6 (by norm_num) hw
    split_ifs <;> simp <;> omega
  · have hdw := digitsOf_length_le w 6 (by norm_num) hw
    have hdp := digitsOf_length_le p 6 (by norm_num) hp
    split_ifs <;> simp <;> omega

theorem gRender_special_zp' (d : FormatDirectives) (v : Value)
    (hv : isFiniteV v = false) :
    gRender { d with zero_pad := true } v = gRender { d with zero_pad := false } v := by
  rcases d with ⟨zp, lj, fs, alt, w, p⟩
  exact gRender_special_zp true false lj fs alt w p v hv

theorem gRender_special_no_zero' (d : FormatDirectives) (v : Value)
    (hv : isFiniteV v = false) : ∀ c ∈ gRender d v, c ≠ '0' := by
  rcases d with ⟨zp, lj, fs, alt, w, p⟩
  exact gRender_special_no_zero zp lj fs alt w p v hv

/-! ### The claims -/

/-- C1 (code bug): with `force_sign` set and a precision but no width, the
control string is assembled without the `+` flag (`(None, Some(p))` arm),
so the non-negative value 42 renders as `"42"` and not `"+42"`; the same
directives without a precision do produce the documented `"+42"`. -/
theorem gpoint_plus_flag_dropped_when_precision_only :
    fmt_g { force_sign := true, precision := some 3 } (Value.finite false 42) =
      Except.ok "42" ∧
    fmt_g { force_sign := true } (Value.finite false 42) = Except.ok "+42" ∧
    ("42" : String).data.head? = some '4' := by
  decide

set_option maxRecDepth 4000 in
/-- C2 (counterexample): with width 200 the fully composed output is
exactly 200 characters — it does not exceed the 200-character bound — yet
`fmt_g` fails, because `snprintf`'s would-be length is rejected already
when it reaches `NUMSTR_SIZE`. -/
theorem gpoint_overflow_at_exactly_200 :
    fmt_g { width := some 200 } (Value.finite false 42) =
      Except.error GErr.formattingOverflow ∧
    (gRender (effDirectives { width := some 200 }) (Value.finite false 42)).length
      = 200 := by
  decide

/-- C2 (amended): formatting succeeds exactly when the assembled control
string fits the 19 writable bytes of the format buffer and the fully
composed output is strictly shorter than the 200-byte output buffer. -/
theorem gpoint_ok_iff_buffers_fit (d : FormatDirectives) (v : Value) :
    (∃ s, fmt_g d v = Except.ok s) ↔
      ((formatString d).length ≤ FORMAT_SIZE - 1 ∧
       (gRender (effDirectives d) v).length < NUMSTR_SIZE) := by
  constructor
  · rintro ⟨s, hs⟩
    simp only [fmt_g] at hs
    split_ifs at hs with h1 h2
    all_goals first
      | exact Except.noConfusion hs
      | exact ⟨by omega, by omega⟩
  · rintro ⟨h1, h2⟩
    simp only [fmt_g]
    rw [if_neg (by omega), if_neg (by omega)]
    exact ⟨_, rfl⟩

/-- C3 (counterexample): a representable width of `10^17` makes the
control string 20 bytes long, overflowing the 19-byte cursor, so the
`DirectiveEncodingFailure` branch is reachable. -/
theorem gpoint_encoding_failure_reachable :
    fmt_g { width := some (10 ^ 17) } (Value.finite false 42) =
      Except.error GErr.directiveEncodingFailure := by
  decide

/-- C3 (amended): assembling the control description cannot fail as long
as the requested width and precision are each below `10^6` (then the
control string fits the 19 writable bytes for every flag combination). -/
theorem gpoint_encoding_unreachable_when_bounded (d : FormatDirectives) (v : Value)
    (hw : d.width.getD 0 < 10 ^ 6) (hp : d.precision.getD 0 < 10 ^ 6) :
    fmt_g d v ≠ Except.error GErr.directiveEncodingFailure := by
  have hfit := formatString_length_le d hw hp
  simp only [fmt_g]
  rw [if_neg (not_lt.mpr hfit)]
  split_ifs
  · intro h
    injection h with h'
    exact GErr.noConfusion h'
  · intro h
    exact Except.noConfusion h

theorem gpoint_encoding_unreachable_when_bounded_witness :
    (fmt_g { width := some 999999, precision := some 999999 }
        (Value.finite false 42) =
      Except.error GErr.directiveEncodingFailure) = False :=
  eq_false (gpoint_encoding_unreachable_when_bounded
    { width := some 999999, precision := some 999999 } (Value.finite false 42)
    (by decide) (by decide))

/-- C4: special values render as fixed literals — `nan`, `inf`, `-inf` at
default directives, `+inf` and `+nan` under `force_sign` — and at the
rendering level the literal is independent of precision and the alternate
flag. -/
theorem gpoint_special_literals :
    fmt_g {} Value.nan = Except.ok "nan" ∧
    fmt_g {} (Value.inf false) = Except.ok "inf" ∧
    fmt_g {} (Value.inf true) = Except.ok "-inf" ∧
    fmt_g { force_sign := true } (Value.inf false) = Except.ok "+inf" ∧
    fmt_g { force_sign := true } Value.nan = Except.ok "+nan" ∧
    (∀ (p : Option Nat) (a : Bool),
      gRender { precision := p, alternate := a } Value.nan = ['n', 'a', 'n'] ∧
      gRender { precision := p, alternate := a } (Value.inf false) = ['i', 'n', 'f'] ∧
      gRender { precision := p, alternate := a } (Value.inf true)
        = ['-', 'i', 'n', 'f']) := by
  refine ⟨by decide, by decide, by decide, by decide, by decide, ?_⟩
  intro p a
  exact ⟨rfl, rfl, rfl⟩

/-- C5: for special values zero-padding never produces `'0'` padding: the
rendering with `zero_pad` set is identical to the one without it, and a
successfully formatted special value contains no `'0'` character at all
(padding is spaces; left-justification still applies normally). -/
theorem gpoint_special_never_zero_padded (d : FormatDirectives) (b : Bool) :
    (gRender { d with zero_pad := true } Value.nan =
      gRender { d with zero_pad := false } Value.nan) ∧
    (gRender { d with zero_pad := true } (Value.inf b) =
      gRender { d with zero_pad := false } (Value.inf b)) ∧
    (∀ s, fmt_g d Value.nan = Except.ok s → s.data.count '0' = 0) ∧
    (∀ s, fmt_g d (Value.inf b) = Except.ok s → s.data.count '0' = 0) := by
  refine ⟨gRender_special_zp' d Value.nan rfl,
    gRender_special_zp' d (Value.inf b) rfl, ?_, ?_⟩
  · intro s hs
    simp only [fmt_g] at hs
    split_ifs at hs
    injection hs with hs'
    subst hs'
    exact List.count_eq_zero.mpr
      (fun hmem => gRender_special_no_zero' _ Value.nan rfl '0' hmem rfl)
  · intro s hs
    simp only [fmt_g] at hs
    split_ifs at hs
    injection hs with hs'
    subst hs'
    exact List.count_eq_zero.mpr
      (fun hmem => gRender_special_no_zero' _ (Value.inf b) rfl '0' hmem rfl)

theorem gpoint_special_never_zero_padded_witness :
    ("     nan" : String).data.count '0' = 0 :=
  (gpoint_special_never_zero_padded { width := some 8, zero_pad := true } true).2.2.1
    "     nan" (by decide)

theorem gpoint_notation_choice_witness :
    (gParts 3 (4321:ℚ)).2.1.length = 3 - 1 ∧
    ∃ c t, (gParts 3 (4321:ℚ)).2.2 = 'e' :: c :: t ∧ (c = '+' ∨ c = '-') ∧
      2 ≤ t.length :=
  (gpoint_notation_choice 3 4321 (by norm_num) (by norm_num)).1 (by decide)

/-- C7 (counterexample): at width 5, precision `10^13`, the `-` and `0`
flags together overflow the 19-byte format cursor, so `zero_pad=true,
left_justify=true` fails while `zero_pad=false, left_justify=true`
renders `"0    "` — the two are not identical. -/
theorem gpoint_zero_pad_left_justify_not_identical :
    fmt_g ⟨true, true, false, false, some 5, some (10 ^ 13)⟩ (Value.finite false 0) =
      Except.error GErr.directiveEncodingFailure ∧
    fmt_g ⟨false, true, false, false, some 5, some (10 ^ 13)⟩ (Value.finite false 0) =
      Except.ok "0    " := by
  constructor
  · simp only [fmt_g]
    rw [if_pos (by decide)]
  · simp only [fmt_g]
    rw [if_neg (by decide)]
    have hrender : gRender (effDirectives ⟨false, true, false, false, some 5, some (10 ^ 13)⟩)
        (Value.finite false 0) = ['0', ' ', ' ', ' ', ' '] := by
      have hb : gBody (effDirectives ⟨false, true, false, false, some 5, some (10 ^ 13)⟩)
          (Value.finite false 0) = ['0'] := by
        show renderFinite false
          (effPrecision ⟨false, true, false, false, some 5, some (10 ^ 13)⟩) 0 = ['0']
        rw [show effPrecision ⟨false, true, false, false, some 5, some (10 ^ 13)⟩
            = 10 ^ 13 from by norm_num [effPrecision]]
        exact renderFinite_zero_trim _
      have htok : gToken (effDirectives ⟨false, true, false, false, some 5, some (10 ^ 13)⟩)
          (Value.finite false 0) = ['0'] := by
        simp only [gToken, hb]
        rfl
      show gRender ⟨false, true, false, false, some 5, some (10 ^ 13)⟩
        (Value.finite false 0) = _
      simp only [gRender]
      rw [show gToken ⟨false, true, false, false, some 5, some (10 ^ 13)⟩
          (Value.finite false 0) = ['0'] from htok]
      rw [if_neg (by norm_num)]
      rw [if_pos trivial]
      decide
    rw [hrender]
    rw [if_neg (by norm_num [NUMSTR_SIZE])]

/-- C7 (amended): whenever the control string with both flags fits the
19-byte format buffer, the output with `zero_pad=true, left_justify=true`
is identical to the output with `zero_pad=false, left_justify=true` —
left-justification suppresses zero-padding. -/
theorem gpoint_left_justify_suppresses_zero_pad (fs alt : Bool) (w p : Option Nat)
    (v : Value)
    (hfit : (formatString ⟨true, true, fs, alt, w, p⟩).length ≤ FORMAT_SIZE - 1) :
    fmt_g ⟨true, true, fs, alt, w, p⟩ v = fmt_g ⟨false, true, fs, alt, w, p⟩ v := by
  have hfit2 : (formatString ⟨false, true, fs, alt, w, p⟩).length ≤ FORMAT_SIZE - 1 :=
    le_trans (formatString_zp_le true fs alt w p) hfit
  have hrender : gRender (effDirectives ⟨true, true, fs, alt, w, p⟩) v =
      gRender (effDirectives ⟨false, true, fs, alt, w, p⟩) v := by
    rcases w with _ | W <;> rcases p with _ | P
    · rfl
    · rfl
    · exact gRender_zp_lj true false (!true && fs) alt (some W) none v
    · exact gRender_zp_lj true false (!true && fs) alt (some W) (some P) v
  simp only [fmt_g, hrender]
  rw [if_neg (not_lt.mpr hfit), if_neg (not_lt.mpr hfit2)]

theorem gpoint_left_justify_suppresses_zero_pad_witness :
    fmt_g ⟨true, true, false, false, some 4, none⟩ (Value.finite false 42) =
      fmt_g ⟨false, true, false, false, some 4, none⟩ (Value.finite false 42) :=
  gpoint_left_justify_suppresses_zero_pad false false (some 4) none
    (Value.finite false 42) (by decide)

/-- C8: width composition: a token shorter than the field is padded to
exactly the field width, and a token at least as wide is emitted
unchanged. -/
theorem gpoint_width_padding (d : FormatDirectives) (v : Value) (W : Nat) :
    ((gToken d v).length < W →
      (gRender { d with width := some W } v).length = W) ∧
    (W ≤ (gToken d v).length →
      gRender { d with width := some W } v = gToken d v) := by
  rcases d with ⟨zp, lj, fs, alt, w, p⟩
  exact gRender_pad zp lj fs alt w p v W

theorem gpoint_width_padding_witness :
    (gRender { width := some 4 } (Value.finite false 42)).length = 4 :=
  (gpoint_width_padding {} (Value.finite false 42) 4).1 (by decide)

/-- C9: the `f32` display path widens the value to `f64` (exactly) and is
the `f64` display path composed with that widening. -/
theorem gpoint_f32_widens_to_f64 (d : FormatDirectives) (v : Value32) :
    displayF32 d v = displayF64 d (f32_to_f64 v) := rfl

/-- C10: every string the formatter successfully emits (the bytes handed
to the sink without a UTF-8 check) consists of ASCII characters only. -/
theorem gpoint_output_ascii (d : FormatDirectives) (v : Value) (s : String)
    (h : fmt_g d v = Except.ok s) : s.data.all isAsciiChar = true := by
  simp only [fmt_g] at h
  split_ifs at h
  injection h with h'
  subst h'
  rw [List.all_eq_true]
  intro c hc
  exact gRender_ascii _ v c hc

theorem gpoint_output_ascii_witness :
    ("42" : String).data.all isAsciiChar = true :=
  gpoint_output_ascii {} (Value.finite false 42) "42" (by decide)

end GPointSpec
